import Mathlib

/-!
Verification development for the linked-list queue in `queue.c`.

Strings are modelled as `List Char` (the bytes before the terminating NUL).
The singly linked chain reachable from `q->head` is modelled as a `List` of
the node payloads; the `tail` pointer is modelled as the payload the tail
field designates (`none` for NULL), and `size` as a natural number.

Loops of the C source are translated into structural recursions; where the
C recursion/loop is not structural in a list argument, an explicit fuel
argument bounds the iteration count, with fuel chosen at the call site to
be at least the number of iterations the C loop performs, so the fuel-out
branch is never reached on the arguments the program supplies.
-/

/-- Model of C `isspace` (C locale): space, \t, \n, \v, \f, \r. -/
def isCSpace (c : Char) : Bool :=
  c.toNat == 32 || c.toNat == 9 || c.toNat == 10 ||
  c.toNat == 11 || c.toNat == 12 || c.toNat == 13

/-- The inner `for (; isspace(*a); a++);` skip loop of `strnatcmp`. -/
def dropSpaces : List Char → List Char
  | [] => []
  | c :: cs => if isCSpace c then dropSpaces cs else c :: cs

/-- `isdigit(*a)` at the current position; the implicit NUL at the end of a
string is not a digit. -/
def digitHead : List Char → Bool
  | [] => false
  | c :: _ => c.isDigit

/-- `*a == '0'` at the current position. -/
def headZero : List Char → Bool
  | [] => false
  | c :: _ => c == '0'

/-- The byte value `*a` at the current position, with the implicit
terminating NUL read as 0. -/
def headVal : List Char → Nat
  | [] => 0
  | c :: _ => c.toNat

/-- The expression `(*a <= *b) ? ((*a < *b) ? -1 : 0) : 1` from
`compare_int` (queue.c line 196). -/
def digit_cmp (x y : Char) : Int :=
  if x.toNat ≤ y.toNat then (if x.toNat < y.toNat then -1 else 0) else 1

/-- The code after `compare_int`'s loop (queue.c lines 203..208): the
substring that still has digits remaining wins, otherwise the recorded
`result` is returned. -/
def ci_fin (result : Int) (a b : List Char) : Int :=
  if digitHead a && !(digitHead b) then 1
  else if !(digitHead a) && digitHead b then -1
  else result

/-- The loop of `compare_int` (queue.c lines 194..202): while both sides
are digits, record the first difference in `result`; once `result` is
non-zero, return it immediately when `lz` (the leading-zero flag) is set. -/
def ci_go (lz : Bool) (result : Int) : List Char → List Char → Int
  | x :: xs, y :: ys =>
    if x.isDigit && y.isDigit then
      if result = 0 then ci_go lz (digit_cmp x y) xs ys
      else if lz then result
      else ci_go lz result xs ys
    else ci_fin result (x :: xs) (y :: ys)
  | a, b => ci_fin result a b

/-- `compare_int` (queue.c lines 188..209): compare the integer substrings
at the start of `a` and `b`; `lead_zero` is latched from the first
characters. -/
def compare_int (a b : List Char) : Int :=
  ci_go (headZero a || headZero b) 0 a b

/-- One comparison step of `strnatcmp`'s loop body after the space skips
(queue.c lines 229..236): digit runs go to `compare_int`, otherwise the
bytes compare by ordinal value. -/
def sn_step (a b : List Char) : Int :=
  if digitHead a && digitHead b then compare_int a b
  else if headVal a < headVal b then -1
  else if headVal b < headVal a then 1
  else 0

/-- The loop of `strnatcmp` (queue.c lines 223..240), fuelled: each
iteration skips spaces on both sides, performs one comparison step, and on
equality advances one position on each side. The loop exits (returning the
running result, which is then 0) as soon as either side is at its NUL. One
unit of fuel is spent per iteration; both sides lose at least one
character per iteration, so `min |a| |b| + 1` fuel is always enough. -/
def sngoF : Nat → List Char → List Char → Int
  | 0, _, _ => 0
  | _ + 1, [], _ => 0
  | _ + 1, _ :: _, [] => 0
  | f + 1, x :: xs, y :: ys =>
      let a2 := dropSpaces (x :: xs)
      let b2 := dropSpaces (y :: ys)
      let r := sn_step a2 b2
      if r = 0 then sngoF f a2.tail b2.tail else r

/-- `strnatcmp` (queue.c lines 218..242). -/
def strnatcmp (a b : List Char) : Int :=
  sngoF (min a.length b.length + 1) a b

/-! ## The queue model -/

/-- `queue_t` (queue.h): `head` models the chain of payloads reachable by
`next` links from `q->head`; `tail` models the payload of the node the
`tail` field points at (`none` for NULL); `size` the element count. -/
structure Queue where
  head : List (List Char)
  tail : Option (List Char)
  size : Nat
deriving DecidableEq, Repr

/-- `q_new` (queue.c lines 13..22), successful-allocation case. -/
def q_new : Queue := { head := [], tail := none, size := 0 }

/-- `q_insert_head` (queue.c lines 49..77), successful-allocation case:
the new node carries an exact copy of `s` (strncpy of strlen bytes plus an
explicit NUL); the tail is set to the new node when the queue was empty. -/
def q_insert_head (q : Queue) (s : List Char) : Queue :=
  { head := s :: q.head,
    tail := if q.head = [] then some s else q.tail,
    size := q.size + 1 }

/-- `q_insert_tail` (queue.c lines 86..116), successful-allocation case:
when the queue was empty the head is set to the new node, otherwise the
old tail's next link is pointed at it; the tail becomes the new node. -/
def q_insert_tail (q : Queue) (s : List Char) : Queue :=
  { head := if q.head = [] then [s] else q.head ++ [s],
    tail := some s,
    size := q.size + 1 }

/-- The type `size_t` is a 64-bit unsigned integer. -/
def size_t_mod : Nat := 2 ^ 64

/-- `bufsize - 1` in `size_t` arithmetic (queue.c lines 138..139):
subtraction wraps modulo 2^64. -/
def size_t_dec (n : Nat) : Nat := (n + size_t_mod - 1) % size_t_mod

/-- The copy length `slen >= bufsize ? bufsize - 1 : slen` computed by
`q_remove_head` (queue.c line 138), in `size_t` arithmetic. -/
def copy_len (slen bufsize : Nat) : Nat :=
  if slen ≥ bufsize then size_t_dec bufsize else slen

/-- The bytes `q_remove_head` leaves in `sp` before the terminator: the
first `copy_len` bytes of the removed value (queue.c lines 138..139). -/
def copy_out (v : List Char) (bufsize : Nat) : List Char :=
  v.take (copy_len v.length bufsize)

/-- `q_remove_head` (queue.c lines 126..146): `none` models the `false`
return on a NULL or empty queue; otherwise the pair is the string copied
out to `sp` and the queue after unlinking and freeing the head node. -/
def q_remove_head (q : Queue) (bufsize : Nat) : Option (List Char × Queue) :=
  match q.head with
  | [] => none
  | v :: rest =>
      some (copy_out v bufsize,
            { head := rest,
              tail := if rest = [] then none else q.tail,
              size := q.size - 1 })

/-- `q_size` (queue.c lines 152..155), non-NULL queue. -/
def q_size (q : Queue) : Nat := q.size

/-- `q_reverse` (queue.c lines 164..179): a no-op on an empty queue;
otherwise the tail is pointed at the former head node and every next link
is flipped. -/
def q_reverse (q : Queue) : Queue :=
  if q.head = [] then q
  else
    { head := q.head.reverse,
      tail := q.head.head?,
      size := q.size }

/-! ## The sort engine -/

/-- The fast/slow walk of `split_list` (queue.c lines 249..258): given the
list starting at `head->next` (the fast pointer's start), count how many
times the slow pointer advances — once per two advances of the fast
pointer. -/
def split_walk : List α → Nat
  | [] => 0
  | [_] => 0
  | _ :: _ :: rest => split_walk rest + 1

/-- `split_list` (queue.c lines 247..263): the front half is the nodes up
to and including the slow pointer (whose next link is then severed), the
back half is the rest. -/
def split_list (l : List α) : List α × List α :=
  (l.take (split_walk l.tail + 1), l.drop (split_walk l.tail + 1))

/-- `merge` (queue.c lines 270..302), fuelled and parameterized by the
comparator `cmp` (the C code applies `strnatcmp`): repeatedly take the
head whose comparison is `<= 0` (ties favour `a`), then append the
remainder of the unexhausted list. One node is consumed per unit of fuel,
so `|a| + |b|` fuel always suffices; the fuel-out branch is unreachable
at that fuel. -/
def mergeF (cmp : α → α → Int) : Nat → List α → List α → List α
  | 0, a, b => a ++ b
  | _ + 1, [], b => b
  | _ + 1, a, [] => a
  | f + 1, x :: xs, y :: ys =>
      if cmp x y ≤ 0 then x :: mergeF cmp f xs (y :: ys)
      else y :: mergeF cmp f (x :: xs) ys

/-- `merge` at its adequate fuel. -/
def merge (cmp : α → α → Int) (a b : List α) : List α :=
  mergeF cmp (a.length + b.length) a b

/-- `merge_sort` (queue.c lines 307..318), fuelled: lists of length at
most one are returned as is, otherwise split, recurse, merge. Each
recursive call is on a strictly shorter list, so fuel `|l|` suffices. -/
def mergeSortF (cmp : α → α → Int) : Nat → List α → List α
  | 0, l => l
  | f + 1, l =>
      match l with
      | [] => []
      | [x] => [x]
      | x :: y :: rest =>
          let p := split_list (x :: y :: rest)
          merge cmp (mergeSortF cmp f p.1) (mergeSortF cmp f p.2)

/-- `merge_sort` at its adequate fuel, with the comparator the C code
applies (`strnatcmp`; the `strcmp` alternative appears only commented
out). -/
def merge_sort (l : List (List Char)) : List (List Char) :=
  mergeSortF strnatcmp l.length l

/-- `q_sort` (queue.c lines 325..337): a no-op on an empty queue,
otherwise sort the chain and walk to its last node to restore `tail`. -/
def q_sort (q : Queue) : Queue :=
  if q.head = [] then q
  else
    { head := merge_sort q.head,
      tail := (merge_sort q.head).getLast?,
      size := q.size }

/-! ## Failure-path model of the inserts -/

/-- Result record for the insert operations under an explicit allocation
outcome: `mallocs` counts the blocks `malloc` returned (node and/or
string buffer), `frees` the blocks freed before returning. -/
structure InsRes where
  ok : Bool
  q : Queue
  mallocs : Nat
  frees : Nat
deriving DecidableEq, Repr

/-- `q_insert_head` (queue.c lines 49..77) with the two allocation
outcomes explicit: when either `malloc` fails, the one that succeeded (if
any) is freed and the queue is untouched. -/
def q_insert_head_alloc (q : Queue) (s : List Char) (nodeOk bufOk : Bool) :
    InsRes :=
  let m := (if nodeOk then 1 else 0) + (if bufOk then 1 else 0)
  if !nodeOk || !bufOk then
    { ok := false, q := q, mallocs := m,
      frees := (if nodeOk then 1 else 0) + (if bufOk then 1 else 0) }
  else
    { ok := true, q := q_insert_head q s, mallocs := m, frees := 0 }

/-- `q_insert_tail` (queue.c lines 86..116) with the two allocation
outcomes explicit, mirroring `q_insert_head_alloc`. -/
def q_insert_tail_alloc (q : Queue) (s : List Char) (nodeOk bufOk : Bool) :
    InsRes :=
  let m := (if nodeOk then 1 else 0) + (if bufOk then 1 else 0)
  if !nodeOk || !bufOk then
    { ok := false, q := q, mallocs := m,
      frees := (if nodeOk then 1 else 0) + (if bufOk then 1 else 0) }
  else
    { ok := true, q := q_insert_tail q s, mallocs := m, frees := 0 }

/-! ## Structural invariants -/

/-- The structural invariants of §3 of the specification: `size` is zero
exactly on the fully empty state, the `tail` field designates the last
node of the chain, and the chain from `head` has exactly `size` nodes.
(The third source invariant, that the tail node's next link is NULL, is
inherent in representing the chain as a `List`.) -/
def Wf (q : Queue) : Prop :=
  (q.size = 0 ↔ q.head = [] ∧ q.tail = none) ∧
  q.tail = q.head.getLast? ∧
  q.head.length = q.size

instance (q : Queue) : Decidable (Wf q) := by
  unfold Wf; infer_instance

/-! ## Lemmas about the split step -/

theorem split_walk_eq : ∀ (l : List α), split_walk l = l.length / 2
  | [] => by simp [split_walk]
  | [_] => by simp [split_walk]
  | _ :: _ :: rest => by
      simp only [split_walk, split_walk_eq rest, List.length_cons]
      omega

theorem split_list_app (l : List α) :
    (split_list l).1 ++ (split_list l).2 = l :=
  List.take_append_drop _ l

theorem split_list_fst_len (l : List α) :
    (split_list l).1.length = min (split_walk l.tail + 1) l.length := by
  simp [split_list]

theorem split_list_snd_len (l : List α) :
    (split_list l).2.length = l.length - (split_walk l.tail + 1) := by
  simp [split_list]

/-- Claim C8: for every non-empty list of `n` nodes, `split_list` yields
the original first `⌈n/2⌉` nodes as the front half and the remaining
`⌊n/2⌋` nodes as the back half. -/
theorem c8_split_halves (l : List α) (h : l ≠ []) :
    (split_list l).1.length = (l.length + 1) / 2 ∧
    (split_list l).2.length = l.length / 2 ∧
    (split_list l).1 = l.take ((l.length + 1) / 2) ∧
    (split_list l).2 = l.drop ((l.length + 1) / 2) ∧
    (split_list l).1 ++ (split_list l).2 = l := by
  have h1 : 1 ≤ l.length := List.length_pos.mpr h
  have ht : l.tail.length = l.length - 1 := by simp [List.length_tail]
  have hw : split_walk l.tail + 1 = (l.length + 1) / 2 := by
    rw [split_walk_eq, ht]; omega
  refine ⟨?_, ?_, ?_, ?_, split_list_app l⟩
  · rw [split_list_fst_len, hw]; omega
  · rw [split_list_snd_len, hw]; omega
  · simp [split_list, hw]
  · simp [split_list, hw]

/-- Witness for C8 at the concrete five-element list `[0, 1, 2, 3, 4]`. -/
theorem c8_split_halves_witness :
    ([0, 1, 2, 3, 4] : List Nat) ≠ [] ∧
    ((split_list ([0, 1, 2, 3, 4] : List Nat)).1.length = 3 ∧
     (split_list ([0, 1, 2, 3, 4] : List Nat)).2.length = 2 ∧
     (split_list ([0, 1, 2, 3, 4] : List Nat)).1 =
       ([0, 1, 2, 3, 4] : List Nat).take 3 ∧
     (split_list ([0, 1, 2, 3, 4] : List Nat)).2 =
       ([0, 1, 2, 3, 4] : List Nat).drop 3 ∧
     (split_list ([0, 1, 2, 3, 4] : List Nat)).1 ++
       (split_list ([0, 1, 2, 3, 4] : List Nat)).2 = [0, 1, 2, 3, 4]) :=
  ⟨by decide, c8_split_halves ([0, 1, 2, 3, 4] : List Nat) (by decide)⟩

/-! ## Reverse -/

/-- Claim C7: reversing twice restores the element order; a single
reverse keeps exactly the original nodes (it only redirects links,
turning the chain into its mirror image), keeps `size`, and swaps the
roles of head and tail (the new first node is the old last one and the
new last node is the old first one). -/
theorem c7_reverse_involutive (q : Queue) :
    (q_reverse (q_reverse q)).head = q.head ∧
    (q_reverse q).head = q.head.reverse ∧
    (q_reverse q).size = q.size ∧
    (q_reverse q).head.head? = q.head.getLast? ∧
    (q_reverse q).head.getLast? = q.head.head? := by
  by_cases h : q.head = []
  · simp [q_reverse, h]
  · have h2 : q.head.reverse ≠ [] := by simpa using h
    simp [q_reverse, h, h2, List.head?_reverse, List.getLast?_reverse]

/-! ## Remove-head copy contract -/

/-- Claim C10: with a supplied buffer of capacity 0, the copy length
`bufsize - 1` is computed in `size_t` arithmetic and wraps to
`2^64 - 1`; for every capacity of at least 1 the copy length stays within
`capacity - 1`, so the bounded copy-and-terminate contract holds exactly
under the precondition `capacity >= 1`. -/
theorem c10_copy_len_wraps (slen n : Nat) (h1 : 1 ≤ n)
    (h2 : n < size_t_mod) :
    copy_len slen 0 = 2 ^ 64 - 1 ∧ copy_len slen n ≤ n - 1 + (slen - n) ∧
    (slen ≥ n → copy_len slen n = n - 1) ∧ (slen < n → copy_len slen n = slen) := by
  have h2' : n < 2 ^ 64 := h2
  unfold copy_len size_t_dec size_t_mod
  refine ⟨by simp, ?_, ?_, ?_⟩ <;> split <;> omega

/-- Witness for C10 at `slen = 5`, `n = 3`. -/
theorem c10_copy_len_wraps_witness :
    (1 ≤ 3 ∧ 3 < size_t_mod) ∧
    (copy_len 5 0 = 2 ^ 64 - 1 ∧ copy_len 5 3 ≤ 3 - 1 + (5 - 3) ∧
     (5 ≥ 3 → copy_len 5 3 = 2) ∧ (5 < 3 → copy_len 5 3 = 5)) :=
  ⟨⟨by decide, by norm_num [size_t_mod]⟩,
   c10_copy_len_wraps 5 3 (by decide) (by norm_num [size_t_mod])⟩

/-- Claim C5: inserting `s` at the front and then removing the front with
a buffer of capacity `n ≥ 1` succeeds and yields exactly `s` whenever
`|s| ≤ n - 1`, and the first `n - 1` bytes of `s` otherwise. -/
theorem c5_round_trip (q : Queue) (s : List Char) (n : Nat)
    (h1 : 1 ≤ n) (h2 : n < size_t_mod) :
    ∃ q', q_remove_head (q_insert_head q s) n =
      some ((if s.length ≤ n - 1 then s else s.take (n - 1)), q') := by
  have h2' : n < 2 ^ 64 := h2
  have hco : copy_out s n = (if s.length ≤ n - 1 then s else s.take (n - 1)) := by
    unfold copy_out copy_len size_t_dec size_t_mod
    by_cases hc : s.length ≥ n
    · have hif : ¬(s.length ≤ n - 1) := by omega
      have hm : (n + 2 ^ 64 - 1) % 2 ^ 64 = n - 1 := by omega
      rw [if_pos hc, hm, if_neg hif]
    · have hif : s.length ≤ n - 1 := by omega
      rw [if_neg hc, if_pos hif, List.take_length]
  exact ⟨_, by rw [← hco]; rfl⟩

/-- Witness for C5: round trip of `"ab"` through a 2-byte buffer. -/
theorem c5_round_trip_witness :
    (1 ≤ 2 ∧ 2 < size_t_mod) ∧
    (∃ q', q_remove_head (q_insert_head q_new (['a', 'b'])) 2 =
      some ((if ['a', 'b'].length ≤ 2 - 1 then ['a', 'b']
             else ['a', 'b'].take (2 - 1)), q')) :=
  ⟨⟨by decide, by norm_num [size_t_mod]⟩,
   c5_round_trip q_new (['a', 'b']) 2 (by decide)
     (by norm_num [size_t_mod])⟩

/-! ## Allocation-failure paths -/

/-- Claim C6: whenever the node allocation or the buffer allocation fails
during an insert at either end, the operation reports failure, the queue
is returned untouched, and every block that was allocated has been freed
(nothing leaks, nothing is linked in). -/
theorem c6_alloc_failure (q : Queue) (s : List Char) (nodeOk bufOk : Bool)
    (h : ¬(nodeOk = true ∧ bufOk = true)) :
    ((q_insert_head_alloc q s nodeOk bufOk).ok = false ∧
     (q_insert_head_alloc q s nodeOk bufOk).q = q ∧
     (q_insert_head_alloc q s nodeOk bufOk).frees =
       (q_insert_head_alloc q s nodeOk bufOk).mallocs) ∧
    ((q_insert_tail_alloc q s nodeOk bufOk).ok = false ∧
     (q_insert_tail_alloc q s nodeOk bufOk).q = q ∧
     (q_insert_tail_alloc q s nodeOk bufOk).frees =
       (q_insert_tail_alloc q s nodeOk bufOk).mallocs) := by
  cases nodeOk <;> cases bufOk <;>
    simp_all [q_insert_head_alloc, q_insert_tail_alloc]

/-- Witness for C6: node allocated, buffer allocation failed. -/
theorem c6_alloc_failure_witness :
    (¬(true = true ∧ false = true)) ∧
    (((q_insert_head_alloc q_new (['a']) true false).ok = false ∧
      (q_insert_head_alloc q_new (['a']) true false).q = q_new ∧
      (q_insert_head_alloc q_new (['a']) true false).frees =
        (q_insert_head_alloc q_new (['a']) true false).mallocs) ∧
     ((q_insert_tail_alloc q_new (['a']) true false).ok = false ∧
      (q_insert_tail_alloc q_new (['a']) true false).q = q_new ∧
      (q_insert_tail_alloc q_new (['a']) true false).frees =
        (q_insert_tail_alloc q_new (['a']) true false).mallocs)) :=
  ⟨by decide, c6_alloc_failure q_new (['a']) true false (by decide)⟩

/-! ## Antisymmetry of the natural-order comparator

`strnatcmp b a` is the negation of `strnatcmp a b`: the scan is fully
symmetric in its two arguments up to the sign of every recorded result.
This is what makes the merge step produce an order whose adjacent pairs
all compare `<= 0`. -/

theorem digit_cmp_self (c : Char) : digit_cmp c c = 0 := by
  simp [digit_cmp]

theorem digit_cmp_anti (x y : Char) : digit_cmp y x = -digit_cmp x y := by
  unfold digit_cmp
  split_ifs <;> omega

theorem ci_fin_anti (r : Int) (a b : List Char) :
    ci_fin (-r) b a = -(ci_fin r a b) := by
  unfold ci_fin
  cases hda : digitHead a <;> cases hdb : digitHead b <;> simp [hda, hdb]

theorem ci_go_anti (lz : Bool) :
    ∀ (a b : List Char) (r : Int), ci_go lz (-r) b a = -(ci_go lz r a b) := by
  intro a
  induction a with
  | nil =>
    intro b r
    cases b with
    | nil => simpa using ci_fin_anti r [] []
    | cons y ys => simpa [ci_go] using ci_fin_anti r [] (y :: ys)
  | cons x xs ih =>
    intro b r
    cases b with
    | nil => simpa [ci_go] using ci_fin_anti r (x :: xs) []
    | cons y ys =>
      simp only [ci_go]
      rw [Bool.and_comm (y.isDigit)]
      by_cases hd : (x.isDigit && y.isDigit) = true
      · rw [if_pos hd, if_pos hd]
        by_cases hr : r = 0
        · have hr' : -r = 0 := by omega
          rw [if_pos hr, if_pos hr', digit_cmp_anti]
          exact ih ys (digit_cmp x y)
        · have hr' : ¬(-r = 0) := by omega
          rw [if_neg hr, if_neg hr']
          cases lz with
          | true => simp
          | false => simpa using ih ys r
      · rw [if_neg hd, if_neg hd]
        exact ci_fin_anti r (x :: xs) (y :: ys)

theorem compare_int_anti (a b : List Char) :
    compare_int b a = -(compare_int a b) := by
  unfold compare_int
  rw [Bool.or_comm]
  simpa using ci_go_anti (headZero a || headZero b) a b 0

theorem sn_step_anti (a b : List Char) : sn_step b a = -(sn_step a b) := by
  unfold sn_step
  rw [Bool.and_comm (digitHead b)]
  by_cases hd : (digitHead a && digitHead b) = true
  · rw [if_pos hd, if_pos hd]
    exact compare_int_anti a b
  · rw [if_neg hd, if_neg hd]
    split_ifs <;> omega

theorem sngoF_anti : ∀ (f : Nat) (a b : List Char),
    sngoF f b a = -(sngoF f a b) := by
  intro f
  induction f with
  | zero => intro a b; simp [sngoF]
  | succ f ih =>
    intro a b
    cases a with
    | nil =>
      cases b with
      | nil => simp [sngoF]
      | cons y ys => simp [sngoF]
    | cons x xs =>
      cases b with
      | nil => simp [sngoF]
      | cons y ys =>
        simp only [sngoF]
        rw [sn_step_anti]
        by_cases hr : sn_step (dropSpaces (x :: xs)) (dropSpaces (y :: ys)) = 0
        · have hr' : -sn_step (dropSpaces (x :: xs)) (dropSpaces (y :: ys)) = 0 := by
            omega
          rw [if_pos hr, if_pos hr']
          exact ih _ _
        · have hr' : ¬(-sn_step (dropSpaces (x :: xs)) (dropSpaces (y :: ys)) = 0) := by
            omega
          rw [if_neg hr, if_neg hr']

theorem strnatcmp_anti (a b : List Char) :
    strnatcmp b a = -(strnatcmp a b) := by
  unfold strnatcmp
  rw [Nat.min_comm]
  exact sngoF_anti _ a b

theorem strnatcmp_total (x y : List Char) (h : ¬(strnatcmp x y ≤ 0)) :
    strnatcmp y x ≤ 0 := by
  rw [strnatcmp_anti]; omega

/-! ## Merge and merge sort lemmas -/

theorem mergeF_perm (cmp : α → α → Int) :
    ∀ (f : Nat) (a b : List α), (mergeF cmp f a b).Perm (a ++ b) := by
  intro f
  induction f with
  | zero => intro a b; simp [mergeF]
  | succ f ih =>
    intro a b
    cases a with
    | nil => simp [mergeF]
    | cons x xs =>
      cases b with
      | nil => simp [mergeF]
      | cons y ys =>
        simp only [mergeF]
        split
        · exact ((ih xs (y :: ys)).cons x)
        · exact (((ih (x :: xs) ys).cons y).trans List.perm_middle.symm)

theorem mergeF_head (cmp : α → α → Int) (f : Nat) (a b : List α) (z : α)
    (h : (mergeF cmp f a b).head? = some z) :
    a.head? = some z ∨ b.head? = some z := by
  cases f with
  | zero =>
    cases a with
    | nil => right; simpa [mergeF] using h
    | cons x xs => left; simpa [mergeF] using h
  | succ f =>
    cases a with
    | nil => right; simpa [mergeF] using h
    | cons x xs =>
      cases b with
      | nil => left; simpa [mergeF] using h
      | cons y ys =>
        simp only [mergeF] at h
        split at h
        · left; simpa using h
        · right; simpa using h

theorem mergeF_chain (cmp : α → α → Int)
    (htot : ∀ x y, ¬(cmp x y ≤ 0) → cmp y x ≤ 0) :
    ∀ (f : Nat) (a b : List α), a.length + b.length ≤ f →
      List.Chain' (fun u v => cmp u v ≤ 0) a →
      List.Chain' (fun u v => cmp u v ≤ 0) b →
      List.Chain' (fun u v => cmp u v ≤ 0) (mergeF cmp f a b) := by
  intro f
  induction f with
  | zero =>
    intro a b hlen ha hb
    have ha0 : a = [] := List.length_eq_zero.mp (by omega)
    have hb0 : b = [] := List.length_eq_zero.mp (by omega)
    subst ha0; subst hb0
    simp [mergeF]
  | succ f ih =>
    intro a b hlen ha hb
    cases a with
    | nil => simpa [mergeF] using hb
    | cons x xs =>
      cases b with
      | nil => simpa [mergeF] using ha
      | cons y ys =>
        have hxxs := List.chain'_cons'.mp ha
        have hyys := List.chain'_cons'.mp hb
        simp only [mergeF]
        split
        case isTrue hcmp =>
          rw [List.chain'_cons']
          refine ⟨?_, ih xs (y :: ys) (by simp at hlen ⊢; omega) hxxs.2 hb⟩
          intro z hz
          rcases mergeF_head cmp f xs (y :: ys) z (Option.mem_def.mp hz) with h1 | h2
          · exact hxxs.1 z (Option.mem_def.mpr h1)
          · simp only [List.head?_cons, Option.some.injEq] at h2
            subst h2; exact hcmp
        case isFalse hcmp =>
          rw [List.chain'_cons']
          refine ⟨?_, ih (x :: xs) ys (by simp at hlen ⊢; omega) ha hyys.2⟩
          intro z hz
          rcases mergeF_head cmp f (x :: xs) ys z (Option.mem_def.mp hz) with h1 | h2
          · simp only [List.head?_cons, Option.some.injEq] at h1
            subst h1; exact htot x y hcmp
          · exact hyys.1 z (Option.mem_def.mpr h2)

theorem mergeSortF_perm (cmp : α → α → Int) :
    ∀ (f : Nat) (l : List α), (mergeSortF cmp f l).Perm l := by
  intro f
  induction f with
  | zero => intro l; simp [mergeSortF]
  | succ f ih =>
    intro l
    rcases l with _ | ⟨x, _ | ⟨y, rest⟩⟩
    · simp [mergeSortF]
    · simp [mergeSortF]
    · simp only [mergeSortF, merge]
      refine ((mergeF_perm cmp _ _ _).trans (((ih _).append (ih _)).trans ?_))
      rw [split_list_app]

theorem mergeSortF_chain (cmp : α → α → Int)
    (htot : ∀ x y, ¬(cmp x y ≤ 0) → cmp y x ≤ 0) :
    ∀ (f : Nat) (l : List α), l.length ≤ f →
      List.Chain' (fun u v => cmp u v ≤ 0) (mergeSortF cmp f l) := by
  intro f
  induction f with
  | zero =>
    intro l hlen
    have : l = [] := List.length_eq_zero.mp (by omega)
    subst this; simp [mergeSortF]
  | succ f ih =>
    intro l hlen
    rcases l with _ | ⟨x, _ | ⟨y, rest⟩⟩
    · simp [mergeSortF]
    · simp [mergeSortF]
    · simp only [mergeSortF, merge]
      have hw : split_walk (y :: rest) = (rest.length + 1) / 2 := by
        rw [split_walk_eq]; simp
      have hlc : (x :: y :: rest).length = rest.length + 2 := by simp
      simp only [List.length_cons] at hlen
      have hp1 : (split_list (x :: y :: rest)).1.length ≤ f := by
        rw [split_list_fst_len, List.tail_cons, hw, hlc]
        omega
      have hp2 : (split_list (x :: y :: rest)).2.length ≤ f := by
        rw [split_list_snd_len, List.tail_cons, hw, hlc]
        omega
      exact mergeF_chain cmp htot _ _ _ (le_refl _) (ih _ hp1) (ih _ hp2)

/-! ## Claims C1 and C4 -/

/-- Claim C1: on every queue holding at least two elements, `q_sort`
rearranges exactly the existing nodes (the resulting chain is a
permutation of the original one — no allocation, no deallocation), every
adjacent pair `(x, y)` of the result satisfies `strnatcmp x y <= 0` (the
comparator the sort applies), and afterwards the `tail` field designates
the new last node of the chain. -/
theorem c1_sort_correct (q : Queue) (h : 2 ≤ q.head.length) :
    ((q_sort q).head).Perm q.head ∧
    List.Chain' (fun x y => strnatcmp x y ≤ 0) (q_sort q).head ∧
    (q_sort q).tail = (q_sort q).head.getLast? := by
  have hne : q.head ≠ [] := by
    intro he; rw [he] at h; simp at h
  simp only [q_sort, if_neg hne]
  exact ⟨mergeSortF_perm strnatcmp _ _,
         mergeSortF_chain strnatcmp strnatcmp_total _ _ (le_refl _),
         trivial⟩

/-- The queue built by five tail inserts of "3", "1", "2", "10", "20"
into a fresh queue (sanity scenario of §8 of the specification). -/
def demoQ : Queue :=
  q_insert_tail (q_insert_tail (q_insert_tail (q_insert_tail (q_insert_tail
    q_new (['3'])) (['1'])) (['2'])) (['1', '0'])) (['2', '0'])

/-- Witness for C1 on the concrete five-element queue `demoQ`. -/
theorem c1_sort_correct_witness :
    2 ≤ demoQ.head.length ∧
    (((q_sort demoQ).head).Perm demoQ.head ∧
     List.Chain' (fun x y => strnatcmp x y ≤ 0) (q_sort demoQ).head ∧
     (q_sort demoQ).tail = (q_sort demoQ).head.getLast?) :=
  ⟨by decide, c1_sort_correct demoQ (by decide)⟩

/-- Packaging lemma: the chain length matching `size` and the tail field
matching the chain's last node imply all three structural invariants. -/
theorem Wf_of (hd : List (List Char)) (tl : Option (List Char)) (sz : Nat)
    (h1 : tl = hd.getLast?) (h2 : hd.length = sz) :
    Wf ⟨hd, tl, sz⟩ := by
  have hiff : sz = 0 ↔ hd = [] ∧ tl = none := by
    constructor
    · intro hs
      have hh : hd = [] := by
        have hl : hd.length = 0 := by omega
        exact List.length_eq_zero.mp hl
      subst hh
      exact ⟨rfl, by simpa using h1⟩
    · rintro ⟨hh, -⟩
      subst hh
      simp at h2
      omega
  exact ⟨hiff, h1, h2⟩

/-- Claim C4: every public operation (create, insert at either end,
remove from the front, size query, reverse, sort) preserves the
structural invariants `Wf`: `size = 0` exactly when head and tail are
both empty, the chain from `head` has exactly `size` nodes, and the
`tail` field designates its last node (the last node's next link being
NULL is inherent in the chain representation). -/
theorem c4_operations_preserve_invariants :
    Wf q_new ∧
    (∀ q s, Wf q → Wf (q_insert_head q s)) ∧
    (∀ q s, Wf q → Wf (q_insert_tail q s)) ∧
    (∀ q n out q', Wf q → q_remove_head q n = some (out, q') → Wf q') ∧
    (∀ q, Wf q → q_size q = q.head.length) ∧
    (∀ q, Wf q → Wf (q_reverse q)) ∧
    (∀ q, Wf q → Wf (q_sort q)) := by
  refine ⟨by decide, ?_, ?_, ?_, ?_, ?_, ?_⟩
  · -- insert at head
    rintro q s ⟨-, h1, h2⟩
    apply Wf_of
    · cases hq : q.head with
      | nil => simp [hq]
      | cons v rest => simp [hq, h1]
    · simpa using h2
  · -- insert at tail
    rintro q s ⟨-, h1, h2⟩
    apply Wf_of
    · cases hq : q.head with
      | nil => simp [hq]
      | cons v rest => rw [if_neg (by simp [hq]), List.getLast?_concat]
    · cases hq : q.head with
      | nil => rw [hq] at h2; simp at h2; simp [← h2]
      | cons v rest =>
        rw [if_neg (by simp)]
        rw [hq] at h2
        simp at h2 ⊢
        omega
  · -- remove from head
    rintro q n out q' ⟨-, h1, h2⟩ hrm
    unfold q_remove_head at hrm
    cases hq : q.head with
    | nil => rw [hq] at hrm; simp at hrm
    | cons v rest =>
      rw [hq] at hrm
      simp only [Option.some.injEq, Prod.mk.injEq] at hrm
      rw [← hrm.2]
      apply Wf_of
      · cases hr : rest with
        | nil => simp
        | cons w rest' => rw [if_neg (by simp)]; rw [h1, hq, hr]; simp
      · rw [hq] at h2; simp at h2; omega
  · -- size query
    rintro q ⟨-, -, h2⟩
    exact h2.symm
  · -- reverse
    rintro q ⟨h0, h1, h2⟩
    unfold q_reverse
    split
    case isTrue hq => exact ⟨h0, h1, h2⟩
    case isFalse hq =>
      apply Wf_of
      · rw [List.getLast?_reverse]
      · simpa using h2
  · -- sort
    rintro q ⟨h0, h1, h2⟩
    unfold q_sort
    split
    case isTrue hq => exact ⟨h0, h1, h2⟩
    case isFalse hq =>
      apply Wf_of
      · rfl
      · have hp := (mergeSortF_perm strnatcmp q.head.length q.head).length_eq
        unfold merge_sort
        rw [hp]
        exact h2

/-- Witness for C4: inserting into the fresh queue preserves `Wf`. -/
theorem c4_operations_preserve_invariants_witness :
    Wf q_new ∧ Wf (q_insert_head q_new (['a'])) :=
  ⟨by decide,
   c4_operations_preserve_invariants.2.1 q_new (['a']) (by decide)⟩

/-! ## Claim C2: the comparator the sort actually applies -/

/-- Claim C2 counterexample: sorting the queue holding "3", "1", "2",
"10", "20" does NOT produce the lexicographic order
["1", "10", "2", "20", "3"] — the sort's comparator is `strnatcmp`
(the `strcmp` call in `merge` is present only in commented-out form). -/
theorem c2_default_lex_cx :
    (q_sort demoQ).head ≠
      [['1'], ['1', '0'], ['2'], ['2', '0'], ['3']] := by decide

/-- Claim C2 as amended: the sort's default (and only) ordering is the
natural order `strnatcmp`; after inserting ["3", "1", "2", "10", "20"]
at the tail of an empty queue, sorting yields ["1", "2", "3", "10",
"20"], with the tail restored to the node holding "20". -/
theorem c2_default_natural_order :
    (q_sort demoQ).head = [['1'], ['2'], ['3'], ['1', '0'], ['2', '0']] ∧
    (q_sort demoQ).tail = some (['2', '0']) ∧
    (q_sort demoQ).size = 5 := by decide

/-! ## Claim C3: the leading-zero early exit -/

/-- Claim C3 counterexample: comparing "09" with "1", the first (and
only) differing digit pair is '0' versus '1', whose first-difference
result would be -1; but the run of "1" ends immediately after that
position, so `compare_int`'s trailing length check overrides the
recorded difference and both `compare_int` and `strnatcmp` return 1,
not the first difference. -/
theorem c3_first_difference_cx :
    strnatcmp (['0', '9']) (['1']) = 1 ∧
    compare_int (['0', '9']) (['1']) = 1 ∧
    digit_cmp '0' '1' = -1 ∧ ((1 : Int) ≠ -1) := by decide

/-- Scanning a common run of equal digits leaves the recorded result at
zero: `ci_go` over `p ++ a` versus `p ++ b` reduces to `ci_go` over `a`
versus `b` when `p` is all digits. -/
theorem ci_go_app_run (lz : Bool) :
    ∀ (p a b : List Char), p.all Char.isDigit = true →
      ci_go lz 0 (p ++ a) (p ++ b) = ci_go lz 0 a b := by
  intro p
  induction p with
  | nil => intro a b _; simp
  | cons c cs ih =>
    intro a b hall
    simp only [List.all_cons, Bool.and_eq_true] at hall
    simp only [List.cons_append, ci_go]
    simp [hall.1, digit_cmp_self, ih a b hall.2]

/-- Claim C3 as amended: the early exit with the first difference
applies when, at the position right after the first differing digit
pair, both strings still have digits; then the comparator returns that
first difference (under a latched leading zero), however long the rest
of the two runs may be. (When one run instead ends immediately after
the first differing position, the trailing length check decides — see
the counterexample.) -/
theorem c3_leading_zero_early_exit (p : List Char) (x y : Char)
    (xs ys : List Char)
    (hp : p.all Char.isDigit = true)
    (hx : x.isDigit = true) (hy : y.isDigit = true) (hxy : x ≠ y)
    (hlz : (headZero (p ++ x :: xs) || headZero (p ++ y :: ys)) = true)
    (hxs : digitHead xs = true) (hys : digitHead ys = true) :
    compare_int (p ++ x :: xs) (p ++ y :: ys) = digit_cmp x y ∧
    digit_cmp x y ≠ 0 := by
  have hxy' : x.toNat ≠ y.toNat := by
    intro he
    exact hxy (by rw [← Char.ofNat_toNat x, ← Char.ofNat_toNat y, he])
  have hne : digit_cmp x y ≠ 0 := by
    unfold digit_cmp; split_ifs <;> omega
  refine ⟨?_, hne⟩
  unfold compare_int
  rw [hlz, ci_go_app_run true p (x :: xs) (y :: ys) hp]
  have hstep : ci_go true 0 (x :: xs) (y :: ys) =
      ci_go true (digit_cmp x y) xs ys := by
    simp [ci_go, hx, hy]
  rw [hstep]
  rcases xs with _ | ⟨x2, xs'⟩
  · simp [digitHead] at hxs
  rcases ys with _ | ⟨y2, ys'⟩
  · simp [digitHead] at hys
  simp [digitHead] at hxs hys
  simp [ci_go, hxs, hys, hne]

/-- Witness for the amended C3: "09" versus "15" — the first digits
differ under a leading zero and both runs continue, so the result is
the first difference, -1. -/
theorem c3_leading_zero_early_exit_witness :
    (([] : List Char).all Char.isDigit = true ∧
     Char.isDigit '0' = true ∧ Char.isDigit '1' = true ∧ '0' ≠ '1' ∧
     (headZero ([] ++ '0' :: ['9']) || headZero ([] ++ '1' :: ['5'])) = true ∧
     digitHead (['9']) = true ∧ digitHead (['5']) = true) ∧
    (compare_int ([] ++ '0' :: ['9']) ([] ++ '1' :: ['5']) = digit_cmp '0' '1' ∧
     digit_cmp '0' '1' ≠ 0) :=
  ⟨⟨by decide, by decide, by decide, by decide, by decide, by decide,
    by decide⟩,
   c3_leading_zero_early_exit [] '0' '1' (['9']) (['5']) (by decide)
     (by decide) (by decide) (by decide) (by decide) (by decide)
     (by decide)⟩

/-! ## Claim C9: ties between distinct strings -/

/-- Whether the last character of a string is a digit (false for the
empty string). -/
def lastDigit (l : List Char) : Bool :=
  match l.getLast? with
  | some c => c.isDigit
  | none => false

theorem all_digit_last (l : List Char) (hne : l ≠ [])
    (hall : l.all Char.isDigit = true) : lastDigit l = true := by
  unfold lastDigit
  rw [List.getLast?_eq_getLast l hne]
  exact List.all_eq_true.mp hall _ (List.getLast_mem hne)

theorem lastDigit_cons (c : Char) (l : List Char) (h : l ≠ []) :
    lastDigit (c :: l) = lastDigit l := by
  cases l with
  | nil => exact absurd rfl h
  | cons d ds => unfold lastDigit; rw [List.getLast?_cons_cons]

/-- Scanning a string against itself extended by `u` never records a
difference, except when the scan runs off the end of the shorter string
inside a digit run that `u` extends. -/
theorem ci_go_self_app (lz : Bool) :
    ∀ (a u : List Char),
      ¬(a.all Char.isDigit = true ∧ digitHead u = true) →
      ci_go lz 0 a (a ++ u) = 0 := by
  intro a
  induction a with
  | nil =>
    intro u h
    have hu : ¬(digitHead u = true) := fun hd => h ⟨by simp, hd⟩
    cases u with
    | nil => simp [ci_go, ci_fin, digitHead]
    | cons d ds =>
      have hd : d.isDigit = false := by
        simpa [digitHead] using hu
      simp [ci_go, ci_fin, digitHead, hd]
  | cons c cs ih =>
    intro u h
    cases hcd : c.isDigit with
    | false => simp [List.cons_append, ci_go, hcd, ci_fin, digitHead]
    | true =>
      have h' : ¬(cs.all Char.isDigit = true ∧ digitHead u = true) := by
        rintro ⟨h1, h2⟩
        exact h ⟨by simp [hcd, h1], h2⟩
      simp [List.cons_append, ci_go, hcd, digit_cmp_self, ih u h']

theorem sngoF_self_app :
    ∀ (s : List Char) (f : Nat) (u : List Char),
      (∀ c ∈ s, isCSpace c = false) →
      ¬(lastDigit s = true ∧ digitHead u = true) →
      sngoF f s (s ++ u) = 0 := by
  intro s
  induction s with
  | nil => intro f u _ _; cases f <;> simp [sngoF]
  | cons c cs ih =>
    intro f u hsp hb
    cases f with
    | zero => simp [sngoF]
    | succ f =>
      have hc : isCSpace c = false := hsp c (by simp)
      have happ : (c :: cs) ++ u = c :: (cs ++ u) := rfl
      rw [happ]
      simp only [sngoF]
      have hd1 : dropSpaces (c :: cs) = c :: cs := by
        simp [dropSpaces, hc]
      have hd2 : dropSpaces (c :: (cs ++ u)) = c :: (cs ++ u) := by
        simp [dropSpaces, hc]
      rw [hd1, hd2]
      have hr : sn_step (c :: cs) (c :: (cs ++ u)) = 0 := by
        unfold sn_step
        cases hcd : c.isDigit with
        | false =>
          rw [if_neg (by simp [digitHead, hcd])]
          simp [headVal]
        | true =>
          rw [if_pos (by simp [digitHead, hcd])]
          rw [← happ]
          unfold compare_int
          apply ci_go_self_app
          rintro ⟨h1, h2⟩
          exact hb ⟨all_digit_last (c :: cs) (by simp) h1, h2⟩
      have hbcs : ¬(lastDigit cs = true ∧ digitHead u = true) := by
        rintro ⟨h1, h2⟩
        apply hb
        have hcs : cs ≠ [] := by
          intro he; rw [he] at h1; simp [lastDigit] at h1
        rw [lastDigit_cons c cs hcs]
        exact ⟨h1, h2⟩
      have hrec := ih f u (fun d hd => hsp d (by simp [hd])) hbcs
      rw [hr]
      simp only [List.tail_cons]
      simp [hrec]

/-- Claim C9 counterexample: as stated, the claim asserts the result is
0 for every proper-prefix pair whose boundary is not inside a matched
digit run; but when the shorter string ends in whitespace the skip
loops desynchronize the scan: "x " is a proper prefix of "x  y" with no
digits anywhere, yet the comparator returns -1, not 0. -/
theorem c9_zero_ties_cx :
    ['x', ' '] ++ [' ', 'y'] = ['x', ' ', ' ', 'y'] ∧
    strnatcmp (['x', ' ']) (['x', ' ', ' ', 'y']) = -1 ∧
    ((-1 : Int) ≠ 0) := by decide

/-- Claim C9 as amended: for every whitespace-free string `s` and every
extension `u` that does not extend a trailing digit run of `s`, the
comparator returns 0 on `s` versus `s ++ u` — the lock-step scan
reaches the end of `s` without a non-equal comparison — so distinct
strings (take `u` non-empty, e.g. "ab" versus "abc") can compare equal
during the sort. -/
theorem c9_distinct_compare_equal (s u : List Char)
    (hsp : ∀ c ∈ s, isCSpace c = false)
    (hb : ¬(lastDigit s = true ∧ digitHead u = true)) :
    strnatcmp s (s ++ u) = 0 := by
  unfold strnatcmp
  exact sngoF_self_app s _ u hsp hb

/-- Witness for the amended C9: "ab" compares equal to the distinct
string "abc". -/
theorem c9_distinct_compare_equal_witness :
    ((∀ c ∈ (['a', 'b'] : List Char), isCSpace c = false) ∧
     ¬(lastDigit (['a', 'b']) = true ∧ digitHead (['c']) = true)) ∧
    strnatcmp (['a', 'b']) (['a', 'b'] ++ ['c']) = 0 ∧
    (['a', 'b'] : List Char) ≠ ['a', 'b'] ++ ['c'] :=
  ⟨⟨by decide, by decide⟩,
   c9_distinct_compare_equal (['a', 'b']) (['c']) (by decide) (by decide),
   by decide⟩

example : strnatcmp (['1']) (['1', '0']) = -1 := by decide
example : strnatcmp (['1', '0']) (['2']) = 1 := by decide
example : strnatcmp (['0', '9']) (['1']) = 1 := by decide
example : strnatcmp (['a', 'b']) (['a', 'b', 'c']) = 0 := by decide
example : merge_sort ([['2'], ['1', '0'], ['1']]) = [['1'], ['2'], ['1', '0']] := by decide
